import Mathlib

/-!
Verification of the Ising-model exam scheduler
(`src/ising_exam_scheduler.py`).

The embedding is shallow: spins are lists of integers (labels +1 and -1),
the interaction matrix `J` is a list of rows of integers, energies are
integers (spins and `J` entries are integers, so every energy computed by
the code is an integer), and the annealing temperature is a rational
number (real-valued arithmetic `T := T * cool_rate`, compared against
`T_min`).

Randomness: the Python code draws `np.random.randint(0, len(spins))` for
the flip index and `np.random.rand()` for the acceptance test
`rand < exp(-delta_E / T)`.  We model the two draws of iteration `n` by
oracle functions `randIdx : ℕ → ℕ` (reduced mod the state length, so that
every value in `[0, N)` is realizable and every oracle value lands in
range) and `randAccept : ℕ → Bool` (the Boolean outcome of the comparison
`rand < exp(-delta_E / T)`; since `exp` is strictly positive and `rand`
ranges over `[0,1)`, an accepting outcome is realizable whenever that
branch is reached, e.g. by `rand = 0`).  Universal statements below
quantify over all oracles, which only strengthens them.
-/

/-- Loop-faithful embedding of `calculate_energy` (lines 35–42):
`energy = 0; for i in range(len(spins)): for j in range(i+1, len(spins)):
energy += -J[i][j] * spins[i] * spins[j]`. -/
def calculate_energy (spins : List ℤ) (J : List (List ℤ)) : ℤ :=
  (List.range spins.length).foldl
    (fun energy i =>
      (List.range' (i + 1) (spins.length - (i + 1))).foldl
        (fun e j => e + -((J.getD i []).getD j 0) * spins.getD i 0 * spins.getD j 0)
        energy)
    0

/-- Loop-faithful embedding of `count_conflicts` (lines 87–94). -/
def count_conflicts (best_spins : List ℤ) (J : List (List ℤ)) : ℕ :=
  (List.range best_spins.length).foldl
    (fun conflicts i =>
      (List.range' (i + 1) (best_spins.length - (i + 1))).foldl
        (fun c j =>
          if (J.getD i []).getD j 0 = -1 ∧ best_spins.getD i 0 = best_spins.getD j 0
          then c + 1 else c)
        conflicts)
    0

/-- `spins[idx] *= -1` on a list. -/
def flipAt (s : List ℤ) (i : ℕ) : List ℤ :=
  s.set i (-(s.getD i 0))

/-- The mutable locals of `simulate_annealing`. -/
structure AnnealState where
  spins : List ℤ
  T : ℚ
  best_spins : List ℤ
  best_energy : ℤ
  history : List ℤ
  deriving DecidableEq

/-- One iteration of the `for` body of `simulate_annealing` (lines 51–74
up to, but not including, the `break` test): draw an index, flip it,
accept (keeping the flip and updating `best_spins`/`best_energy`) when
`delta_E < 0` or the Metropolis draw accepts, otherwise revert the flip;
then cool `T` and append the current `best_energy` to the history. -/
def annealStep (J : List (List ℤ)) (cool_rate : ℚ) (randIdx : ℕ → ℕ)
    (randAccept : ℕ → Bool) (n : ℕ) (st : AnnealState) : AnnealState :=
  let idx := randIdx n % st.spins.length
  let flipped := flipAt st.spins idx
  let new_energy := calculate_energy flipped J
  let delta_E := new_energy - st.best_energy
  let st2 :=
    if delta_E < 0 then
      { st with spins := flipped, best_spins := flipped, best_energy := new_energy }
    else if randAccept n then
      { st with spins := flipped, best_spins := flipped, best_energy := new_energy }
    else
      { st with spins := flipAt flipped idx }
  { st2 with T := st2.T * cool_rate, history := st2.history ++ [st2.best_energy] }

/-- The `for _ in range(max_iter)` loop with its post-body
`if T < T_min: break` (lines 51–74): `fuel` counts the remaining
iterations, `n` indexes the random draws. -/
def annealLoop (J : List (List ℤ)) (T_min cool_rate : ℚ) (randIdx : ℕ → ℕ)
    (randAccept : ℕ → Bool) : ℕ → ℕ → AnnealState → AnnealState
  | 0, _, st => st
  | fuel + 1, n, st =>
    let st2 := annealStep J cool_rate randIdx randAccept n st
    if st2.T < T_min then st2
    else annealLoop J T_min cool_rate randIdx randAccept fuel (n + 1) st2

/-- The initialization of `simulate_annealing` (lines 46–49). -/
def initState (spins : List ℤ) (J : List (List ℤ)) (T0 : ℚ) : AnnealState :=
  { spins := spins, T := T0, best_spins := spins,
    best_energy := calculate_energy spins J,
    history := [calculate_energy spins J] }

/-- Embedding of `simulate_annealing` (lines 44–76); returns
`(best_spins, best_energy, energy_history)`. -/
def simulate_annealing (spins : List ℤ) (J : List (List ℤ))
    (T0 T_min cool_rate : ℚ) (max_iter : ℕ) (randIdx : ℕ → ℕ)
    (randAccept : ℕ → Bool) : List ℤ × ℤ × List ℤ :=
  let final := annealLoop J T_min cool_rate randIdx randAccept max_iter 0
    (initState spins J T0)
  (final.best_spins, final.best_energy, final.history)

/-- Spec-side energy formula (§4.1): `sum over all i<j of
(-J[i][j] * s[i] * s[j])`, summed over the set of ordered pairs with
`i < j`, each unordered pair counted exactly once. -/
def energySpec (s : List ℤ) (J : List (List ℤ)) : ℤ :=
  ∑ p in (Finset.range s.length ×ˢ Finset.range s.length).filter
      (fun p => p.1 < p.2),
    -((J.getD p.1 []).getD p.2 0) * s.getD p.1 0 * s.getD p.2 0

/-- Spec-side conflict count (§4.3): the number of unordered pairs `i<j`
with `J[i][j] = -1` and `s[i] = s[j]`. -/
def conflictsSpec (s : List ℤ) (J : List (List ℤ)) : ℕ :=
  ((Finset.range s.length ×ˢ Finset.range s.length).filter
    (fun p => p.1 < p.2 ∧ (J.getD p.1 []).getD p.2 0 = -1 ∧
      s.getD p.1 0 = s.getD p.2 0)).card

/-- The number of conflicting pairs of the relation: pairs `i < j < n`
with `J[i][j] = -1`. -/
def conflictPairs (n : ℕ) (J : List (List ℤ)) : ℕ :=
  ((Finset.range n ×ˢ Finset.range n).filter
    (fun p => p.1 < p.2 ∧ (J.getD p.1 []).getD p.2 0 = -1)).card

/-- Modelled from the spec: the configuration-validity predicate of §7
(out-of-range annealing parameters); the source contains no such check,
so this predicate is taken from the spec's words to state claim C2. -/
def validConfig (spins : List ℤ) (J : List (List ℤ))
    (T0 T_min cool_rate : ℚ) : Prop :=
  0 < T0 ∧ 0 < T_min ∧ T_min < T0 ∧ 0 < cool_rate ∧ cool_rate < 1 ∧
    J.length = spins.length ∧ ∀ row ∈ J, row.length = spins.length

instance (spins : List ℤ) (J : List (List ℤ)) (T0 T_min cool_rate : ℚ) :
    Decidable (validConfig spins J T0 T_min cool_rate) := by
  unfold validConfig; infer_instance

/-- After initialization and after every completed iteration, `best_spins`
is the working array and `best_energy` is its energy. -/
def annealInv (J : List (List ℤ)) (st : AnnealState) : Prop :=
  st.best_spins = st.spins ∧ st.best_energy = calculate_energy st.spins J

/-- The history is a non-increasing chain ending in the current best energy. -/
def histInv (st : AnnealState) : Prop :=
  List.Chain' (fun a b => b ≤ a) st.history ∧
    st.history.getLast? = some st.best_energy

/-! ## Loop-unfolding lemmas -/

lemma annealLoop_zero (J : List (List ℤ)) (Tm r : ℚ) (ri : ℕ → ℕ) (ra : ℕ → Bool)
    (n : ℕ) (st : AnnealState) : annealLoop J Tm r ri ra 0 n st = st := rfl

lemma annealLoop_succ (J : List (List ℤ)) (Tm r : ℚ) (ri : ℕ → ℕ) (ra : ℕ → Bool)
    (fuel n : ℕ) (st : AnnealState) :
    annealLoop J Tm r ri ra (fuel + 1) n st =
      if (annealStep J r ri ra n st).T < Tm then annealStep J r ri ra n st
      else annealLoop J Tm r ri ra fuel (n + 1) (annealStep J r ri ra n st) := rfl

lemma simulate_annealing_eq (s : List ℤ) (J : List (List ℤ)) (T0 Tm r : ℚ)
    (mi : ℕ) (ri : ℕ → ℕ) (ra : ℕ → Bool) :
    simulate_annealing s J T0 Tm r mi ri ra =
      ((annealLoop J Tm r ri ra mi 0 (initState s J T0)).best_spins,
       (annealLoop J Tm r ri ra mi 0 (initState s J T0)).best_energy,
       (annealLoop J Tm r ri ra mi 0 (initState s J T0)).history) := rfl

lemma annealLoop_one (J : List (List ℤ)) (Tm r : ℚ) (ri : ℕ → ℕ) (ra : ℕ → Bool)
    (n : ℕ) (st : AnnealState) :
    annealLoop J Tm r ri ra 1 n st = annealStep J r ri ra n st := by
  rw [show (1 : ℕ) = 0 + 1 from rfl, annealLoop_succ]
  simp [annealLoop_zero]

/-! ## Sum machinery: the nested `foldl` loops as `Finset` sums -/

lemma foldl_fun_congr {α β : Type} (f g : β → α → β) (h : ∀ b a, f b a = g b a) :
    ∀ (l : List α) (b : β), l.foldl f b = l.foldl g b := by
  intro l
  induction l with
  | nil => intro b; rfl
  | cons x xs ih => intro b; simp only [List.foldl_cons, h, ih]

lemma foldl_add_eq {M : Type} [AddCommMonoid M] (f : ℕ → M) :
    ∀ (l : List ℕ) (a : M), l.foldl (fun e j => e + f j) a = a + (l.map f).sum := by
  intro l
  induction l with
  | nil => intro a; simp
  | cons x xs ih => intro a; simp [ih, add_assoc]

lemma sum_map_range' {M : Type} [AddCommMonoid M] (f : ℕ → M) :
    ∀ (n a : ℕ), ((List.range' a n).map f).sum = ∑ j in Finset.Ico a (a + n), f j := by
  intro n
  induction n with
  | zero => intro a; simp
  | succ m ih =>
      intro a
      rw [List.range'_succ]
      have hlt : a < a + (m + 1) := by omega
      rw [Finset.sum_eq_sum_Ico_succ_bot hlt]
      have : a + 1 + m = a + (m + 1) := by omega
      simp [ih (a + 1), this]

lemma sum_map_range {M : Type} [AddCommMonoid M] (f : ℕ → M) (n : ℕ) :
    ((List.range n).map f).sum = ∑ j in Finset.range n, f j := by
  rw [List.range_eq_range', sum_map_range' f n 0, Finset.range_eq_Ico]
  simp

lemma calculate_energy_eq_sum (s : List ℤ) (J : List (List ℤ)) :
    calculate_energy s J =
      ∑ i in Finset.range s.length, ∑ j in Finset.Ico (i + 1) s.length,
        -((J.getD i []).getD j 0) * s.getD i 0 * s.getD j 0 := by
  unfold calculate_energy
  rw [foldl_fun_congr _
    (fun e i => e + ((List.range' (i + 1) (s.length - (i + 1))).map
      (fun j => -((J.getD i []).getD j 0) * s.getD i 0 * s.getD j 0)).sum)
    (fun e i => foldl_add_eq _ _ e)]
  rw [foldl_add_eq, sum_map_range, zero_add]
  refine Finset.sum_congr rfl (fun i hi => ?_)
  rw [sum_map_range']
  have : i + 1 + (s.length - (i + 1)) = s.length := by
    have := Finset.mem_range.mp hi; omega
  rw [this]

lemma count_conflicts_eq_sum (s : List ℤ) (J : List (List ℤ)) :
    count_conflicts s J =
      ∑ i in Finset.range s.length, ∑ j in Finset.Ico (i + 1) s.length,
        if (J.getD i []).getD j 0 = -1 ∧ s.getD i 0 = s.getD j 0 then 1 else 0 := by
  unfold count_conflicts
  rw [foldl_fun_congr _
    (fun c i => c + ((List.range' (i + 1) (s.length - (i + 1))).map
      (fun j => if (J.getD i []).getD j 0 = -1 ∧ s.getD i 0 = s.getD j 0
        then 1 else 0)).sum) ?_]
  · rw [foldl_add_eq, sum_map_range, Nat.zero_add]
    refine Finset.sum_congr rfl (fun i hi => ?_)
    rw [sum_map_range']
    have : i + 1 + (s.length - (i + 1)) = s.length := by
      have := Finset.mem_range.mp hi; omega
    rw [this]
  · intro c i
    rw [foldl_fun_congr _
      (fun c j => c + (if (J.getD i []).getD j 0 = -1 ∧ s.getD i 0 = s.getD j 0
        then 1 else 0)) ?_]
    · exact foldl_add_eq _ _ c
    · intro b j
      show _ = b + if (J.getD i []).getD j 0 = -1 ∧ s.getD i 0 = s.getD j 0
        then 1 else 0
      by_cases h : (J.getD i []).getD j 0 = -1 ∧ s.getD i 0 = s.getD j 0
      · rw [if_pos h, if_pos h]
      · rw [if_neg h, if_neg h, Nat.add_zero]

lemma sum_pairs {M : Type} [AddCommMonoid M] (n : ℕ) (f : ℕ → ℕ → M) :
    ∑ p in (Finset.range n ×ˢ Finset.range n).filter (fun p => p.1 < p.2), f p.1 p.2
      = ∑ i in Finset.range n, ∑ j in Finset.Ico (i + 1) n, f i j := by
  rw [Finset.sum_filter, Finset.sum_product]
  refine Finset.sum_congr rfl (fun i _ => ?_)
  rw [← Finset.sum_filter]
  refine Finset.sum_congr ?_ (fun j _ => rfl)
  ext j
  simp only [Finset.mem_filter, Finset.mem_range, Finset.mem_Ico]
  omega

lemma card_filter_pairs (n : ℕ) (P : ℕ → ℕ → Prop) [∀ i j, Decidable (P i j)] :
    ((Finset.range n ×ˢ Finset.range n).filter
        (fun p => p.1 < p.2 ∧ P p.1 p.2)).card
      = ∑ i in Finset.range n, ∑ j in Finset.Ico (i + 1) n,
          if P i j then 1 else 0 := by
  rw [Finset.card_filter, Finset.sum_product]
  refine Finset.sum_congr rfl (fun i _ => ?_)
  have h1 : ∀ j : ℕ, (if i < j ∧ P i j then (1 : ℕ) else 0)
      = if i < j then (if P i j then 1 else 0) else 0 := by
    intro j; by_cases h : i < j <;> by_cases h2 : P i j <;> simp [h, h2]
  simp only [h1]
  rw [← Finset.sum_filter]
  refine Finset.sum_congr ?_ (fun j _ => rfl)
  ext j
  simp only [Finset.mem_filter, Finset.mem_range, Finset.mem_Ico]
  omega


/-! ## The flip is an involution -/

lemma flipAt_flipAt (s : List ℤ) : ∀ i, flipAt (flipAt s i) i = s := by
  induction s with
  | nil => intro i; rfl
  | cons a t ih =>
      intro i
      cases i with
      | zero => simp [flipAt, List.getD]
      | succ k =>
          have h1 : ∀ u : List ℤ, flipAt (a :: u) (k + 1) = a :: flipAt u k := by
            intro u; simp [flipAt, List.getD]
          rw [h1 t, h1 (flipAt t k), ih k]

/-! ## The working state / best state invariant -/

lemma annealInv_init (s : List ℤ) (J : List (List ℤ)) (T0 : ℚ) :
    annealInv J (initState s J T0) := ⟨rfl, rfl⟩

lemma annealInv_step (J : List (List ℤ)) (r : ℚ) (ri : ℕ → ℕ) (ra : ℕ → Bool)
    (n : ℕ) (st : AnnealState) (h : annealInv J st) :
    annealInv J (annealStep J r ri ra n st) := by
  obtain ⟨h1, h2⟩ := h
  unfold annealStep annealInv
  by_cases hd : calculate_energy (flipAt st.spins (ri n % st.spins.length)) J
      - st.best_energy < 0
  · simp [hd]
  · cases hra : ra n with
    | true => simp [hd, hra]
    | false =>
        have hd2 : ¬ calculate_energy (flipAt st.spins (ri n % st.spins.length)) J
            < calculate_energy st.spins J := by
          rw [h2] at hd; omega
        simp [hd, hra, hd2, flipAt_flipAt, h1, h2]

lemma annealInv_loop (J : List (List ℤ)) (Tm r : ℚ) (ri : ℕ → ℕ) (ra : ℕ → Bool) :
    ∀ fuel n st, annealInv J st → annealInv J (annealLoop J Tm r ri ra fuel n st) := by
  intro fuel
  induction fuel with
  | zero => intro n st h; exact h
  | succ k ih =>
      intro n st h
      rw [annealLoop_succ]
      by_cases hT : (annealStep J r ri ra n st).T < Tm
      · rw [if_pos hT]; exact annealInv_step J r ri ra n st h
      · rw [if_neg hT]; exact ih (n + 1) _ (annealInv_step J r ri ra n st h)

/-! ## History bookkeeping -/

lemma step_history_eq (J : List (List ℤ)) (r : ℚ) (ri : ℕ → ℕ) (ra : ℕ → Bool)
    (n : ℕ) (st : AnnealState) :
    (annealStep J r ri ra n st).history
      = st.history ++ [(annealStep J r ri ra n st).best_energy] := by
  unfold annealStep
  by_cases hd : calculate_energy (flipAt st.spins (ri n % st.spins.length)) J
      - st.best_energy < 0
  · simp [hd]
  · cases hra : ra n with
    | true => simp [hd, hra]
    | false => simp [hd, hra]

lemma step_best_le (J : List (List ℤ)) (r : ℚ) (ri : ℕ → ℕ) (ra : ℕ → Bool)
    (n : ℕ) (st : AnnealState) (hra : ra n = false) :
    (annealStep J r ri ra n st).best_energy ≤ st.best_energy := by
  unfold annealStep
  by_cases hd : calculate_energy (flipAt st.spins (ri n % st.spins.length)) J
      - st.best_energy < 0
  · simp only [if_pos hd]
    omega
  · simp [hd, hra]

lemma histInv_step (J : List (List ℤ)) (r : ℚ) (ri : ℕ → ℕ) (ra : ℕ → Bool)
    (n : ℕ) (st : AnnealState) (hra : ra n = false) (h : histInv st) :
    histInv (annealStep J r ri ra n st) := by
  obtain ⟨hc, hl⟩ := h
  constructor
  · rw [step_history_eq, List.chain'_append]
    refine ⟨hc, List.chain'_singleton _, ?_⟩
    intro x hx y hy
    rw [hl] at hx
    simp only [Option.mem_def, Option.some_inj] at hx
    simp only [List.head?_cons, Option.mem_def, Option.some_inj] at hy
    subst hx; subst hy
    exact step_best_le J r ri ra n st hra
  · rw [step_history_eq, List.getLast?_concat]

lemma histInv_loop (J : List (List ℤ)) (Tm r : ℚ) (ri : ℕ → ℕ) (ra : ℕ → Bool)
    (hra : ∀ m, ra m = false) :
    ∀ fuel n st, histInv st → histInv (annealLoop J Tm r ri ra fuel n st) := by
  intro fuel
  induction fuel with
  | zero => intro n st h; exact h
  | succ k ih =>
      intro n st h
      rw [annealLoop_succ]
      by_cases hT : (annealStep J r ri ra n st).T < Tm
      · rw [if_pos hT]; exact histInv_step J r ri ra n st (hra n) h
      · rw [if_neg hT]; exact ih (n + 1) _ (histInv_step J r ri ra n st (hra n) h)

lemma loop_history_len (J : List (List ℤ)) (Tm r : ℚ) (ri : ℕ → ℕ) (ra : ℕ → Bool) :
    ∀ fuel n st,
      st.history.length ≤ (annealLoop J Tm r ri ra fuel n st).history.length := by
  intro fuel
  induction fuel with
  | zero => intro n st; exact Nat.le_refl _
  | succ k ih =>
      intro n st
      rw [annealLoop_succ]
      have hstep : st.history.length
          ≤ (annealStep J r ri ra n st).history.length := by
        rw [step_history_eq]; simp
      by_cases hT : (annealStep J r ri ra n st).T < Tm
      · rw [if_pos hT]; exact hstep
      · rw [if_neg hT]; exact Nat.le_trans hstep (ih (n + 1) _)

/-! ## Bridges to the spec-side definitions -/

lemma conflictPairs_eq_sum (n : ℕ) (J : List (List ℤ)) :
    conflictPairs n J = ∑ i in Finset.range n, ∑ j in Finset.Ico (i + 1) n,
      if (J.getD i []).getD j 0 = -1 then 1 else 0 := by
  unfold conflictPairs
  exact card_filter_pairs n (fun i j => (J.getD i []).getD j 0 = -1)

lemma getD_map_neg (s : List ℤ) : ∀ i, (s.map (fun x => -x)).getD i 0 = -(s.getD i 0) := by
  induction s with
  | nil => intro i; simp
  | cons a t ih =>
      intro i
      cases i with
      | zero => simp
      | succ k => simpa using ih k

lemma pair_term_identity (a si sj : ℤ) (ha : a = 0 ∨ a = -1)
    (hi : si = 1 ∨ si = -1) (hj : sj = 1 ∨ sj = -1) :
    -a * si * sj = 2 * (if a = -1 ∧ si = sj then 1 else 0)
      - (if a = -1 then 1 else 0) := by
  rcases ha with h | h <;> rcases hi with h1 | h1 <;> rcases hj with h2 | h2 <;>
    subst h <;> subst h1 <;> subst h2 <;> norm_num

lemma energy_eq_two_conflicts (s : List ℤ) (J : List (List ℤ))
    (hs : ∀ i, i < s.length → s.getD i 0 = 1 ∨ s.getD i 0 = -1)
    (hJ : ∀ i, i < s.length → ∀ j, j < s.length →
      (J.getD i []).getD j 0 = 0 ∨ (J.getD i []).getD j 0 = -1) :
    calculate_energy s J
      = 2 * (count_conflicts s J : ℤ) - (conflictPairs s.length J : ℤ) := by
  rw [calculate_energy_eq_sum, count_conflicts_eq_sum, conflictPairs_eq_sum]
  push_cast
  rw [Finset.mul_sum, ← Finset.sum_sub_distrib]
  refine Finset.sum_congr rfl (fun i hi => ?_)
  rw [Finset.mul_sum, ← Finset.sum_sub_distrib]
  refine Finset.sum_congr rfl (fun j hj => ?_)
  have hi2 : i < s.length := Finset.mem_range.mp hi
  have hj2 : j < s.length := (Finset.mem_Ico.mp hj).2
  exact pair_term_identity _ _ _ (hJ i hi2 j hj2) (hs i hi2) (hs j hj2)

/-! ## Claim theorems -/

/-- C3: `calculate_energy` computes the sum over all index pairs `i < j`
of `-J[i][j] * s[i] * s[j]`, each unordered pair counted exactly once,
and returns 0 for states of length 0 or 1. -/
theorem calculate_energy_matches_spec : ∀ (s : List ℤ) (J : List (List ℤ)),
    calculate_energy s J = energySpec s J ∧ calculate_energy [] J = 0 ∧
      ∀ x : ℤ, calculate_energy [x] J = 0 := by
  intro s J
  refine ⟨?_, rfl, fun x => rfl⟩
  rw [calculate_energy_eq_sum]
  unfold energySpec
  exact (sum_pairs s.length
    (fun i j => -((J.getD i []).getD j 0) * s.getD i 0 * s.getD j 0)).symm

/-- C7: `count_conflicts` equals the number of unordered pairs `i < j`
with `J[i][j] = -1` and `s[i] = s[j]`, and is bounded by the total number
of conflicting pairs of the relation. -/
theorem count_conflicts_matches_spec : ∀ (s : List ℤ) (J : List (List ℤ)),
    count_conflicts s J = conflictsSpec s J ∧
      conflictsSpec s J ≤ conflictPairs s.length J := by
  intro s J
  constructor
  · rw [count_conflicts_eq_sum]
    unfold conflictsSpec
    exact (card_filter_pairs s.length
      (fun i j => (J.getD i []).getD j 0 = -1 ∧ s.getD i 0 = s.getD j 0)).symm
  · unfold conflictsSpec conflictPairs
    apply Finset.card_le_card
    intro p hp
    simp only [Finset.mem_filter] at hp ⊢
    exact ⟨hp.1, hp.2.1, hp.2.2.1⟩

/-- C8: the energy of the globally flipped state equals the energy of the
state (global spin-flip symmetry). -/
theorem energy_global_flip_symmetry : ∀ (s : List ℤ) (J : List (List ℤ)),
    calculate_energy (s.map (fun x => -x)) J = calculate_energy s J := by
  intro s J
  rw [calculate_energy_eq_sum, calculate_energy_eq_sum, List.length_map]
  refine Finset.sum_congr rfl (fun i _ => Finset.sum_congr rfl (fun j _ => ?_))
  rw [getD_map_neg, getD_map_neg]
  ring

/-- C10: for spin states with labels in {+1, -1} and `J` entries in {0, -1},
`calculate_energy s J = 2 * count_conflicts s J - C`, where `C` is the
number of pairs `i < j` with `J[i][j] = -1`; consequently, among states
of the same length, one has lower or equal energy iff it has lower or
equal conflict count. -/
theorem energy_affine_in_conflicts : ∀ (s : List ℤ) (J : List (List ℤ)),
    (∀ i, i < s.length → s.getD i 0 = 1 ∨ s.getD i 0 = -1) →
    (∀ i, i < s.length → ∀ j, j < s.length →
      (J.getD i []).getD j 0 = 0 ∨ (J.getD i []).getD j 0 = -1) →
    (calculate_energy s J
        = 2 * (count_conflicts s J : ℤ) - (conflictPairs s.length J : ℤ) ∧
      ∀ s2 : List ℤ, (∀ i, i < s2.length → s2.getD i 0 = 1 ∨ s2.getD i 0 = -1) →
        s2.length = s.length →
        (calculate_energy s2 J ≤ calculate_energy s J ↔
          count_conflicts s2 J ≤ count_conflicts s J)) := by
  intro s J hs hJ
  have h1 := energy_eq_two_conflicts s J hs hJ
  refine ⟨h1, fun s2 hs2 hlen => ?_⟩
  have hJ2 : ∀ i, i < s2.length → ∀ j, j < s2.length →
      (J.getD i []).getD j 0 = 0 ∨ (J.getD i []).getD j 0 = -1 :=
    fun i hi j hj => hJ i (hlen ▸ hi) j (hlen ▸ hj)
  have h2 := energy_eq_two_conflicts s2 J hs2 hJ2
  rw [h1, h2, hlen]
  omega

/-- Witness for C10 at the two-item conflicting instance with both items
in the same slot: energy 1, conflict count 1, one conflicting pair. -/
theorem energy_affine_in_conflicts_witness :
    calculate_energy [1, 1] [[0, -1], [-1, 0]]
      = 2 * (count_conflicts [1, 1] [[0, -1], [-1, 0]] : ℤ)
        - (conflictPairs (List.length [1, 1]) [[0, -1], [-1, 0]] : ℤ) :=
  (energy_affine_in_conflicts [1, 1] [[0, -1], [-1, 0]]
    (by decide) (by decide)).1

/-- C4: with `max_iter = 0` the optimizer returns the input state
unchanged together with a history of length 1 holding its energy. -/
theorem max_iter_zero_returns_input : ∀ (s : List ℤ) (J : List (List ℤ))
    (T0 Tm r : ℚ) (ri : ℕ → ℕ) (ra : ℕ → Bool),
    simulate_annealing s J T0 Tm r 0 ri ra
      = (s, calculate_energy s J, [calculate_energy s J]) := by
  intro s J T0 Tm r ri ra
  rfl

/-- C5: in an iteration whose proposal is rejected (`delta_E` not
negative and the Metropolis draw refuses), the working state is reverted
to its value at the start of the iteration and `best_spins` and
`best_energy` are unchanged. -/
theorem rejected_iteration_reverts_state :
    ∀ (J : List (List ℤ)) (r : ℚ) (ri : ℕ → ℕ) (ra : ℕ → Bool) (n : ℕ)
      (st : AnnealState),
    ¬ (calculate_energy (flipAt st.spins (ri n % st.spins.length)) J
        - st.best_energy < 0) →
    ra n = false →
    (annealStep J r ri ra n st).spins = st.spins ∧
    (annealStep J r ri ra n st).best_spins = st.best_spins ∧
    (annealStep J r ri ra n st).best_energy = st.best_energy := by
  intro J r ri ra n st hd hra
  unfold annealStep
  simp [hd, hra, flipAt_flipAt]

/-- Witness for C5: a rejected worsening flip on the two-item instance
leaves the working state, best state and best energy unchanged. -/
theorem rejected_iteration_reverts_state_witness :
    (annealStep [[0, -1], [-1, 0]] (9/10) (fun _ => 0) (fun _ => false) 0
        (AnnealState.mk [1, -1] 8 [1, -1] (-1) [-1])).spins = [1, -1] ∧
    (annealStep [[0, -1], [-1, 0]] (9/10) (fun _ => 0) (fun _ => false) 0
        (AnnealState.mk [1, -1] 8 [1, -1] (-1) [-1])).best_spins = [1, -1] ∧
    (annealStep [[0, -1], [-1, 0]] (9/10) (fun _ => 0) (fun _ => false) 0
        (AnnealState.mk [1, -1] 8 [1, -1] (-1) [-1])).best_energy = -1 :=
  rejected_iteration_reverts_state [[0, -1], [-1, 0]] (9/10) (fun _ => 0)
    (fun _ => false) 0 (AnnealState.mk [1, -1] 8 [1, -1] (-1) [-1])
    (by decide) rfl

/-- C6: the energy value returned by `simulate_annealing` is
`calculate_energy` of the returned best state. -/
theorem returned_energy_is_energy_of_returned_state :
    ∀ (s : List ℤ) (J : List (List ℤ)) (T0 Tm r : ℚ) (mi : ℕ)
      (ri : ℕ → ℕ) (ra : ℕ → Bool),
    (simulate_annealing s J T0 Tm r mi ri ra).2.1
      = calculate_energy (simulate_annealing s J T0 Tm r mi ri ra).1 J := by
  intro s J T0 Tm r mi ri ra
  rw [simulate_annealing_eq]
  obtain ⟨h1, h2⟩ := annealInv_loop J Tm r ri ra mi 0 _ (annealInv_init s J T0)
  dsimp only
  rw [h1]
  exact h2

/-- C9: after initialization and after every step and every loop run, the
working spin array equals `best_spins` and `best_energy` is its energy;
consequently the acceptance delta, computed against `best_energy`, equals
the candidate energy minus the energy of the working state. -/
theorem working_state_equals_best_state_invariant :
    ∀ (J : List (List ℤ)) (Tm r : ℚ) (ri : ℕ → ℕ) (ra : ℕ → Bool),
    (∀ (s : List ℤ) (T0 : ℚ), annealInv J (initState s J T0)) ∧
    (∀ (n : ℕ) (st : AnnealState), annealInv J st →
      annealInv J (annealStep J r ri ra n st)) ∧
    (∀ (fuel n : ℕ) (st : AnnealState), annealInv J st →
      annealInv J (annealLoop J Tm r ri ra fuel n st)) ∧
    (∀ (st : AnnealState) (n : ℕ), annealInv J st →
      calculate_energy (flipAt st.spins (ri n % st.spins.length)) J
          - st.best_energy
        = calculate_energy (flipAt st.spins (ri n % st.spins.length)) J
          - calculate_energy st.spins J) := by
  intro J Tm r ri ra
  refine ⟨fun s T0 => annealInv_init s J T0,
    fun n st h => annealInv_step J r ri ra n st h,
    fun fuel n st h => annealInv_loop J Tm r ri ra fuel n st h,
    fun st n h => ?_⟩
  rw [h.2]

/-- Witness for C9: the invariant holds after one accepted step from the
initial state of the two-item instance. -/
theorem working_state_equals_best_state_invariant_witness :
    annealInv [[0, -1], [-1, 0]]
      (annealStep [[0, -1], [-1, 0]] (9/10) (fun _ => 0) (fun _ => true) 0
        (initState [1, -1] [[0, -1], [-1, 0]] 8)) :=
  (working_state_equals_best_state_invariant [[0, -1], [-1, 0]] (1/10) (9/10)
    (fun _ => 0) (fun _ => true)).2.1 0
    (initState [1, -1] [[0, -1], [-1, 0]] 8) ⟨rfl, rfl⟩

/-! ## C1: the history is NOT pointwise non-increasing -/

lemma worsening_accepted_run :
    simulate_annealing [1, -1] [[0, -1], [-1, 0]] 8 (1/10) (9/10) 1
      (fun _ => 0) (fun _ => true) = ([-1, -1], 1, [-1, 1]) := by
  have e0 : calculate_energy [1, -1] [[0, -1], [-1, 0]] = -1 := by decide
  have hf : flipAt [1, -1] (0 % 2) = [-1, -1] := by decide
  have ef : calculate_energy [-1, -1] [[0, -1], [-1, 0]] = 1 := by decide
  simp only [simulate_annealing, initState, annealLoop_one, annealStep]
  norm_num [e0, hf, ef]

/-- Counterexample to C1 as stated: on a valid configuration (two
conflicting items, `T0 = 8 > T_min = 1/10 > 0`, `cool_rate = 9/10`,
`max_iter = 1`) with draws flipping index 0 and accepting (realizable,
since `exp` is positive and the uniform draw can be 0), the recorded
history is `[-1, 1]`, which increases. -/
theorem history_can_increase_cex :
    validConfig [1, -1] [[0, -1], [-1, 0]] 8 (1/10) (9/10) ∧
    ¬ List.Chain' (fun a b => b ≤ a)
        (simulate_annealing [1, -1] [[0, -1], [-1, 0]] 8 (1/10) (9/10) 1
          (fun _ => 0) (fun _ => true)).2.2 := by
  constructor
  · refine ⟨by norm_num, by norm_num, by norm_num, by norm_num, by norm_num,
      rfl, ?_⟩
    intro row hr
    fin_cases hr <;> rfl
  · rw [worsening_accepted_run]
    show ¬ List.Chain' (fun a b => b ≤ a) [-1, 1]
    intro h
    have h2 := (List.chain'_cons.mp h).1
    omega

/-- C1 (amended): the energy history is pointwise non-increasing in every
run in which no worsening proposal is accepted by the Metropolis draw;
in general an accepted worsening move strictly increases the recorded
value, so the history need not be non-increasing. -/
theorem history_nonincreasing_when_no_worsening_accepted :
    ∀ (s : List ℤ) (J : List (List ℤ)) (T0 Tm r : ℚ) (mi : ℕ)
      (ri : ℕ → ℕ) (ra : ℕ → Bool),
    (∀ m, ra m = false) →
    List.Chain' (fun a b => b ≤ a)
      (simulate_annealing s J T0 Tm r mi ri ra).2.2 := by
  intro s J T0 Tm r mi ri ra hra
  rw [simulate_annealing_eq]
  have h0 : histInv (initState s J T0) := ⟨List.chain'_singleton _, rfl⟩
  exact (histInv_loop J Tm r ri ra hra mi 0 _ h0).1

/-- Witness for the amended C1 on a concrete all-rejecting run. -/
theorem history_nonincreasing_witness :
    List.Chain' (fun a b => b ≤ a)
      (simulate_annealing [1, -1] [[0, -1], [-1, 0]] 8 (1/10) (9/10) 1
        (fun _ => 0) (fun _ => false)).2.2 :=
  history_nonincreasing_when_no_worsening_accepted [1, -1] [[0, -1], [-1, 0]]
    8 (1/10) (9/10) 1 (fun _ => 0) (fun _ => false) (fun _ => rfl)

/-! ## C2: the optimizer performs no configuration validation -/

lemma invalid_T0_run :
    simulate_annealing [1, -1] [[0, -1], [-1, 0]] (-1) (1/10) (9/10) 1
      (fun _ => 0) (fun _ => true) = ([-1, -1], 1, [-1, 1]) := by
  have e0 : calculate_energy [1, -1] [[0, -1], [-1, 0]] = -1 := by decide
  have hf : flipAt [1, -1] (0 % 2) = [-1, -1] := by decide
  have ef : calculate_energy [-1, -1] [[0, -1], [-1, 0]] = 1 := by decide
  simp only [simulate_annealing, initState, annealLoop_one, annealStep]
  norm_num [e0, hf, ef]

/-- Counterexample to C2 as stated: with the invalid parameter `T0 = -1`
(the configuration fails the validity predicate) on an otherwise
well-formed two-item instance, `simulate_annealing` does not fail before
the loop: it executes a full iteration (the history grows from its
initial single entry to length 2) and returns normally.  The accepting
draw is realizable — it is in fact forced, since at `T = -1` and
`delta_E = 2` the code compares `rand < exp(2) > 1`. -/
theorem no_validation_cex :
    ¬ validConfig [1, -1] [[0, -1], [-1, 0]] (-1) (1/10) (9/10) ∧
    (simulate_annealing [1, -1] [[0, -1], [-1, 0]] (-1) (1/10) (9/10) 1
      (fun _ => 0) (fun _ => true)).2.2.length = 2 := by
  constructor
  · intro h
    have h1 := h.1
    norm_num at h1
  · rw [invalid_T0_run]
    rfl

/-- C2 (amended): on well-formed inputs — a nonempty state and a matrix
`J` of matching square dimensions, where the embedding is faithful —
`simulate_annealing` validates none of the scalar annealing parameters:
for arbitrary `T0`, `T_min` and `cool_rate`, including invalid values
such as `T0 = -1`, with `max_iter ≥ 1` the annealing loop executes at
least one full iteration (the history grows beyond its initial entry)
and the function returns normally; the invalid scalars are used
silently, and no configuration error is raised. -/
theorem no_scalar_param_validation :
    ∀ (s : List ℤ) (J : List (List ℤ)) (T0 Tm r : ℚ) (mi : ℕ)
      (ri : ℕ → ℕ) (ra : ℕ → Bool),
    0 < s.length →
    J.length = s.length →
    (∀ row ∈ J, row.length = s.length) →
    1 ≤ mi →
    2 ≤ (simulate_annealing s J T0 Tm r mi ri ra).2.2.length := by
  intro s J T0 Tm r mi ri ra hN hJlen hJrow hmi
  obtain ⟨k, rfl⟩ : ∃ k, mi = k + 1 := ⟨mi - 1, by omega⟩
  rw [simulate_annealing_eq]
  dsimp only
  rw [annealLoop_succ]
  have hstep : ((annealStep J r ri ra 0 (initState s J T0)).history).length = 2 := by
    rw [step_history_eq]
    simp [initState]
  by_cases hT : (annealStep J r ri ra 0 (initState s J T0)).T < Tm
  · rw [if_pos hT]
    omega
  · rw [if_neg hT]
    have hmono := loop_history_len J Tm r ri ra k (0 + 1)
      (annealStep J r ri ra 0 (initState s J T0))
    omega

/-- Witness for the amended C2: on the well-formed two-item instance the
loop runs and the history grows even under the invalid initial
temperature `T0 = -1` (the always-accepting draws are realizable there,
since `exp` of a non-negative argument is at least 1). -/
theorem no_scalar_param_validation_witness :
    2 ≤ (simulate_annealing [1, -1] [[0, -1], [-1, 0]] (-1) (1/10) (9/10) 5
        (fun _ => 0) (fun _ => true)).2.2.length :=
  no_scalar_param_validation [1, -1] [[0, -1], [-1, 0]] (-1) (1/10)
    (9/10) 5 (fun _ => 0) (fun _ => true) (by norm_num) rfl
    (by intro row hr; fin_cases hr <;> rfl) (by norm_num)
